import Mathlib

/-!
Verification development for the treearbo repository: an indentation-sensitive
plain-text tree notation with a parser (`string_to_tree`), a serializer
(`tree_to_string`), an immutable tree value type with path-addressed editing
(`insert`, `select`), construction helpers (`struct`, `data`, `list_`,
`clone`, `text`) and a rewrite engine (`hack`).

Python strings are modelled as `List Char`.  The `Span` objects carried by
every Python `Tree` are diagnostic source-position metadata: no operation's
result shape, success or failure depends on them (they are only embedded into
exception message strings), so they are erased from the embedding.  Python
exceptions are modelled as `Except` error values.
-/

namespace Treearbo

/-- A tree node (treearbo.py, class `Tree`, lines 81-92): `ty` is the
structural type label (`type_`), `v` the leaf payload (`value`), `kids` the
ordered children.  `span` is erased (see the module comment). -/
inductive Tree where
  | node (ty : List Char) (v : List Char) (kids : List Tree)

def Tree.ty : Tree → List Char
  | .node t _ _ => t

def Tree.v : Tree → List Char
  | .node _ v _ => v

def Tree.kids : Tree → List Tree
  | .node _ _ k => k

/-- Python-level exceptions raised by the Tree editing operations. -/
inductive RunErr where
  /-- `TreeError` raised by `Tree.struct` (line 136). -/
  | treeError
  /-- Python `IndexError` from list indexing out of range. -/
  | indexError
  /-- Python `TypeError` from calling `list.append` with a number of
  arguments different from one (line 246). -/
  | typeError
deriving DecidableEq

/-- Tree.list_ (lines 100-105): a list/wrap node with empty type and value. -/
def Tree.list_ (kids : List Tree) : Tree := .node [] [] kids

/-- Tree.clone (lines 147-155): copy `type_` and `value`, replace children. -/
def Tree.clone (t : Tree) (kids : List Tree) : Tree := .node t.ty t.v kids

/-- Tree.struct (lines 129-138).  The Python guard is
`re.match(r'[ \n\t\\]', type_)`: `re.match` anchors at the start of the
string, so only the FIRST character of `type_` is tested against the
character class; on a match a `TreeError` is raised, otherwise the node is
built with an empty value. -/
def Tree.struct (ty : List Char) (kids : List Tree) : Except RunErr Tree :=
  match ty with
  | [] => .ok (.node [] [] kids)
  | c :: _ =>
    if c = ' ' ∨ c = '\n' ∨ c = '\t' ∨ c = '\\' then .error .treeError
    else .ok (.node ty [] kids)

/-- Python `value.split('\n')`: split into chunks at every newline; the empty
string yields one empty chunk. -/
def splitNl : List Char → List (List Char)
  | [] => [[]]
  | c :: cs =>
    if c = '\n' then [] :: splitNl cs
    else
      match splitNl cs with
      | [] => [[c]]
      | h :: t => (c :: h) :: t

/-- Python `'\n'.join(values)`. -/
def joinNl : List (List Char) → List Char
  | [] => []
  | [v] => v
  | v :: w :: vs => v ++ '\n' :: joinNl (w :: vs)

/-- Tree.data (lines 107-127): if `value` contains a newline it is split into
per-line untyped leaf children placed before the supplied `kids`, and the
node's own value becomes empty; otherwise the node carries `value` itself. -/
def Tree.data (value : List Char) (kids : List Tree) : Tree :=
  let chunks := splitNl value
  if chunks.length > 1 then
    .node [] [] (chunks.map (fun chunk => Tree.node [] chunk []) ++ kids)
  else
    .node [] value kids

/-- Tree.text (lines 157-166): the node's value followed by the
newline-joined values of its untyped children (typed children are skipped). -/
def Tree.text (t : Tree) : List Char :=
  t.v ++ joinNl (t.kids.filterMap (fun kid => if kid.ty = [] then some kid.v else none))

/-- A path segment (`TreePath`, line 78): a type label string, an integer
index, or the unbound `None` marker. -/
inductive Seg where
  | str (s : List Char)
  | idx (i : Int)
  | unbound
deriving DecidableEq

/-- Python list indexing `l[i]`: a negative index counts from the end;
`none` models the `IndexError` raised when the index is out of range. -/
def pyIdx (l : List α) (i : Int) : Option α :=
  let j : Int := if i < 0 then (l.length : Int) + i else i
  if 0 ≤ j then l.get? j.toNat else none

/-- Python slicing `l[:k]`: a negative bound counts from the end, clamping
at zero. -/
def pySliceTo (l : List α) (k : Int) : List α :=
  if 0 ≤ k then l.take k.toNat
  else l.take ((l.length : Int) + k).toNat

def optList : Option Tree → List Tree
  | some t => [t]
  | none => []

/-- Tree.insert (lines 168-218), faithfully including its control-flow:

* string segment (lines 181-205): the loop body sets `replaced = True` and
  recurses `item.insert(...)` for EVERY child, matching or not (the guard
  `if item.type_ != type_` only controls keeping the original child), so
  after a non-empty loop `replaced` is always true and the synthesis branch
  runs only when there are no children at all;
* integer segment (lines 206-211): `sub[type_]` raises `IndexError` when the
  index is out of range (the `or self.list_(...)` alternative is dead code in
  Python because a `Tree` object is always truthy); the slot is assigned the
  recursive result, which may be `None`, and `filter(bool, sub)` then drops
  it;
* unbound segment (lines 212-218): broadcast over the children (or one fresh
  empty list node when there are none), dropping `None` results. -/
def Tree.insert (t : Tree) (value : Option Tree) : List Seg → Except RunErr (Option Tree)
  | [] => .ok value
  | seg :: rest =>
    match seg, t with
    | .str ty, .node sty sv kids => do
      let subs ← kids.mapM (fun item => do
        let elem ← item.insert value rest
        pure ((if item.ty ≠ ty then [item] else []) ++ optList elem))
      let sub := subs.flatten
      if kids.isEmpty ∧ value.isSome then
        match Tree.struct ty [] with
        | .error e => .error e
        | .ok base => do
          let elem ← base.insert value rest
          pure (some (Tree.node sty sv (sub ++ optList elem)))
      else
        pure (some (Tree.node sty sv sub))
    | .idx i, .node sty sv kids =>
      match pyIdx kids i with
      | none => .error .indexError
      | some item => do
        let elem ← item.insert value rest
        let j : Int := if i < 0 then (kids.length : Int) + i else i
        pure (some (Tree.node sty sv (((kids.map some).set j.toNat elem).filterMap id)))
    | .unbound, .node sty sv kids => do
      let base := if kids.isEmpty then [Tree.node [] [] []] else kids
      let kids' ← base.mapM (fun item => item.insert value rest)
      pure (some (Tree.node sty sv (kids'.filterMap id)))

/-- The candidate-narrowing loop of Tree.select (lines 226-246).  The Python
loop `for item in prev` executes a `break` at the end of both the string and
the integer branch, so for those segment kinds only the FIRST candidate is
examined.  The unbound branch runs `next_.append(*item.kids)`: `list.append`
takes exactly one argument, so this raises `TypeError` unless the candidate
has exactly one child.  The integer branch's guard `type_ < len(item.kids)`
has no lower bound, so a sufficiently negative index reaches the indexing
expression and raises `IndexError`. -/
def selectLoop : List Seg → List Tree → Except RunErr (List Tree)
  | [], next_ => .ok next_
  | seg :: rest, next_ =>
    if next_.isEmpty then .ok next_
    else
      match seg with
      | .str ty =>
        match next_ with
        | [] => .ok []
        | item :: _ => selectLoop rest (item.kids.filter (fun child => child.ty == ty))
      | .idx i =>
        match next_ with
        | [] => .ok []
        | item :: _ =>
          if i < (item.kids.length : Int) then
            match pyIdx item.kids i with
            | none => .error .indexError
            | some child => selectLoop rest [child]
          else selectLoop rest []
      | .unbound => do
        let next' ← next_.mapM (fun item =>
          match item.kids with
          | [kid] => Except.ok kid
          | _ => Except.error RunErr.typeError)
        selectLoop rest next'

/-- Tree.select (lines 220-248): run the narrowing loop starting from the
singleton candidate list and wrap the final candidates in a list node. -/
def Tree.select (t : Tree) (path : List Seg) : Except RunErr Tree := do
  let next_ ← selectLoop path [t]
  pure (Tree.node [] [] next_)

/-! ## The rewrite engine `hack` (spec-modelled) -/

/-- Modelled from the spec: the rewrite engine `hack`/`hack_self` (spec §4.6)
is invoked by the repository's tests (`Tree.hack`) but its definition is
absent from the files under `src/`.  A handler receives the node and the
"hack the children with the same belt" recursion capability (the Python
handler reaches it as `node.hack(belt, context)`) and returns the replacement
sequence; the mutable context, which the spec's default behaviour never
touches, is omitted. -/
def Handler : Type := Tree → (Tree → Option (List Tree)) → Option (List Tree)

/-- Modelled from the spec: a belt is a mapping from type label to handler,
with the empty label acting as wildcard/default. -/
def beltLookup (belt : List (List Char × Handler)) (ty : List Char) : Option Handler :=
  (belt.find? (fun e => e.1 == ty)).map (fun e => e.2)

/-- Modelled from the spec (§4.6, `hack_self`): look up `belt[node.type]`,
fall back to `belt[""]`, and if neither exists clone the node with its
children recursively hacked. -/
def hackSelf (hackRec : Tree → Option (List Tree)) (belt : List (List Char × Handler))
    (t : Tree) : Option (List Tree) :=
  match beltLookup belt t.ty with
  | some h => h t hackRec
  | none =>
    match beltLookup belt [] with
    | some h => h t hackRec
    | none => (hackRec t).map (fun ks => [t.clone ks])

/-- Effectful map over a list in the Option monad, written out directly (the
Python `for` loop that collects handler results, failing as soon as one
recursion fails). -/
def mapMOpt (f : α → Option β) : List α → Option (List β)
  | [] => some []
  | a :: as =>
    match f a with
    | none => none
    | some b => (mapMOpt f as).map (fun bs => b :: bs)

/-- Modelled from the spec (§4.6, `hack`): apply `hack_self` to every child
and concatenate the resulting sequences.  `fuel` makes the recursion through
handler closures structural; `none` (exhaustion) never occurs once `fuel`
exceeds the tree's size. -/
def hack : Nat → List (List Char × Handler) → Tree → Option (List Tree)
  | 0, _, _ => none
  | fuel + 1, belt, t =>
    (mapMOpt (fun kid => hackSelf (hack fuel belt) belt kid) t.kids).map List.flatten

/-- The identity-clone handler: keep the node, recurse into its children. -/
def idHandler : Handler := fun t hackRec => (hackRec t).map (fun ks => [t.clone ks])

/-! ## The serializer `tree_to_string` -/

mutual

/-- The inner `dump` of tree_to_string (treearbo.py lines 273-294): a
structural node emits its type, inlining a single child after a space,
otherwise a newline followed by the children each on its own line one tab
deeper; an untyped node emits a backslash line with its value (unless it is
the bare root: empty value and empty prefix) and then its children at the
SAME prefix (the `prefix = '\t'` adjustment happens only inside the
structural branch). -/
def dump : Tree → List Char → List Char
  | .node ty v kids, pfx =>
    if ty ≠ [] then
      let pfx' := if pfx = [] then ['\t'] else pfx
      match kids with
      | [kid] => ty ++ ' ' :: dump kid pfx'
      | other => ty ++ '\n' :: dumpKids other pfx'
    else
      (if v ≠ [] ∨ pfx ≠ [] then '\\' :: (v ++ ['\n']) else []) ++ dumpKids kids pfx
termination_by t _ => sizeOf t
decreasing_by
  all_goals simp_wf
  all_goals omega

/-- The `for kid in tree.kids` loop of `dump` (lines 292-294). -/
def dumpKids : List Tree → List Char → List Char
  | [], _ => []
  | kid :: ks, pfx => (pfx ++ dump kid (pfx ++ ['\t'])) ++ dumpKids ks pfx
termination_by ts _ => sizeOf ts

end

/-- tree_to_string (lines 270-298): dump from the root with an empty prefix. -/
def tree_to_string (t : Tree) : List Char := dump t []

/-! ## The parser `string_to_tree` -/

/-- The exceptions string_to_tree can raise (treearbo.py lines 301-409). -/
inductive PErr where
  /-- `StringToTreeError` "Too few tabs" (line 335). -/
  | tooFewTabs
  /-- `StringToTreeError` "Too many tabs" (line 337). -/
  | tooManyTabs
  /-- `StringToTreeError` "Wrong nodes separator" (line 356). -/
  | wrongSeparator
  /-- `StringToTreeError` "Unexpected EOF, LF required" (line 404). -/
  | unexpectedEof
  /-- A Python-level exception escaping string_to_tree: the `ValueError`
  from `string.index('\n', pos)` at line 349 when no newline follows (the
  `== -1` check at line 351 is dead code since `str.index` raises rather
  than returning -1), or the `IndexError` from `stack[indent]` at line 340
  after a negative slice emptied the stack.  Also used as the out-of-fuel
  sentinel of `parseGo`, which is unreachable from `string_to_tree`. -/
  | crash
deriving DecidableEq

/-- Parser control state: at the start of a physical line (the top of the
`while len(string) > pos` loop, line 312), or inside a line after indent
handling (the label loop at line 342 and the rest of the loop body). -/
inductive PState where
  | atLine (stack : List Nat)
  | midLine (stack : List Nat) (parent : Nat)

def isSepChar (c : Char) : Bool := c = ' ' || c = '\t'

def isTypeEndChar (c : Char) : Bool := c = '\\' || c = ' ' || c = '\t' || c = '\n'

/-- Append `kid` at the end of the child list of the node reached from the
root by descending `depth` times into the last child.  In the Python parser
the mutable `root`/`stack`/`parent` references all point at nodes on this
rightmost spine: children are only ever appended at the end of a stack
entry's child list, deeper stack entries are truncated away before a
shallower entry is appended to, and every pushed entry is created as the
last child of its parent — so a node reference is faithfully represented by
its spine depth.  `none` models dereferencing a depth that does not exist
(never reached by the parser). -/
def appendLast : Tree → Nat → Tree → Option Tree
  | .node ty v kids, 0, kid => some (.node ty v (kids ++ [kid]))
  | .node ty v kids, depth + 1, kid =>
    match kids.getLast? with
    | none => none
    | some last =>
      (appendLast last depth kid).map (fun last' => .node ty v (kids.dropLast ++ [last']))

/-- The number of leading tabs of the current line (lines 318-320). -/
def nTabsOf (rest : List Char) : Nat := (rest.takeWhile (fun c => c = '\t')).length

/-- The line after its leading tabs. -/
def afterTabs (rest : List Char) : List Char := rest.dropWhile (fun c => c = '\t')

/-- Lines 322-323: `min_indent` is (re)set to the current line's leading tab
count as long as the root still has no children. -/
def minIndentUpd (root : Tree) (minIndent : Nat) (rest : List Char) : Nat :=
  if root.kids.isEmpty then nTabsOf rest else minIndent

/-- The effective indent of the line (line 325), an `Int` since subtracting
`min_indent` can go negative. -/
def indentOf (root : Tree) (minIndent : Nat) (rest : List Char) : Int :=
  (nTabsOf rest : Int) - (minIndentUpd root minIndent rest : Int)

/-- Lines 327-337: the depth check.  On failure the rest of the line is
skipped; too-many-tabs always raises, too-few-tabs raises only when a later
newline exists (line 334) and otherwise CONTINUES with the line consumed. -/
def lineStartStep (stack : List Nat) (indent : Int) (rest1 : List Char) :
    Except PErr (List Char) :=
  if indent < 0 ∨ (stack.length : Int) ≤ indent then
    if indent < 0 then
      if (rest1.dropWhile (fun c => c ≠ '\n')).isEmpty then
        .ok (rest1.dropWhile (fun c => c ≠ '\n'))
      else .error .tooFewTabs
    else .error .tooManyTabs
  else .ok rest1

/-- The main loop of string_to_tree (lines 312-407), one fuel unit per state
transition.  The `atLine` step is lines 312-340: count leading tabs, update
`min_indent`, run the depth check (`lineStartStep`), truncate the stack and
look up the parent (in the non-raising too-few-tabs continuation the slice
bound `indent+1` is negative, so `pySliceTo` counts from the end like Python,
and `pyIdx` may fail like Python's `stack[indent]`).  The `midLine` steps are
lines 342-407: one type token of the label loop per step, then the backslash
payload, the EOF check and the stack push. -/
def parseGo : Nat → Tree → PState → Nat → List Char → Except PErr Tree
  | 0, _, _, _, _ => .error .crash
  | fuel + 1, root, .atLine stack, minIndent, rest =>
    match rest with
    | [] => .ok root
    | _ :: _ =>
      match lineStartStep stack (indentOf root minIndent rest) (afterTabs rest) with
      | .error e => .error e
      | .ok restA =>
        match pyIdx (pySliceTo stack (indentOf root minIndent rest + 1))
            (indentOf root minIndent rest) with
        | none => .error .crash
        | some parent =>
            parseGo fuel root
              (.midLine (pySliceTo stack (indentOf root minIndent rest + 1)) parent)
              (minIndentUpd root minIndent rest) restA
  | fuel + 1, root, .midLine stack parent, minIndent, rest =>
    match rest with
    | [] => if stack.length > 0 then .error .unexpectedEof else .ok root
    | c :: cs =>
      if c = '\n' then
        parseGo fuel root (.atLine (stack ++ [parent])) minIndent cs
      else if c = '\\' then
        let v := cs.takeWhile (fun x => x ≠ '\n')
        let rest1 := cs.dropWhile (fun x => x ≠ '\n')
        match appendLast root parent (.node [] v []) with
        | none => .error .crash
        | some root' =>
          match rest1 with
          | [] => if stack.length > 0 then .error .unexpectedEof else .ok root'
          | _ :: rest2 => parseGo fuel root' (.atLine (stack ++ [parent + 1])) minIndent rest2
      else if isSepChar c then
        if (rest.dropWhile isSepChar).contains '\n' then .error .wrongSeparator
        else .error .crash
      else
        let ty := rest.takeWhile (fun x => ¬ isTypeEndChar x)
        let rest1 := rest.dropWhile (fun x => ¬ isTypeEndChar x)
        match appendLast root parent (.node ty [] []) with
        | none => .error .crash
        | some root' =>
          match rest1 with
          | ' ' :: rest2 => parseGo fuel root' (.midLine stack (parent + 1)) minIndent rest2
          | _ => parseGo fuel root' (.midLine stack (parent + 1)) minIndent rest1

/-- string_to_tree (lines 301-409): start with an empty root, the stack
holding only the root, and `min_indent = 0`.  The fuel bound `2*length + 4`
strictly dominates the number of state transitions (every
`midLine → midLine` or `→ atLine` transition consumes at least one
character). -/
def string_to_tree (s : List Char) : Except PErr Tree :=
  parseGo (2 * s.length + 4) (.node [] [] []) (.atLine [0]) 0 s

/-! ## Proof infrastructure definitions -/

/-- The identity belt used in the spec's round-trip statement for `hack`:
its only entry maps the empty-string wildcard to the identity clone. -/
def idBelt : List (List Char × Handler) := [([], idHandler)]

/-- A run of `n` tab characters. -/
def tabs (n : Nat) : List Char := List.replicate n '\t'

/-- The structural invariant of every tree the parser produces: a typed node
has an empty value, type labels contain no space/tab/newline/backslash, and
leaf values contain no newline. -/
inductive InvTree : Tree → Prop where
  | mk : ∀ ty v kids,
      (ty ≠ [] → v = []) →
      (∀ c ∈ ty, isTypeEndChar c = false) →
      '\n' ∉ v →
      (∀ k ∈ kids, InvTree k) →
      InvTree (.node ty v kids)

/-- `p` is a valid rightmost-spine depth of `t` (appending there succeeds). -/
def spineOk (t : Tree) (p : Nat) : Prop :=
  ∀ k, (appendLast t p k).isSome

/-- Append each of `ks`, in order, as a new child of the node at spine depth
`p` (the accumulated effect of parsing a block of sibling lines). -/
def appendAll : Tree → Nat → List Tree → Option Tree
  | T, _, [] => some T
  | T, p, k :: ks =>
    match appendLast T p k with
    | none => none
    | some T' => appendAll T' p ks

/-- The parser, started at the beginning of a physical line with the given
state, computes `r` for every sufficiently large fuel. -/
def RunsA (root : Tree) (stack : List Nat) (m : Nat) (rest : List Char)
    (r : Except PErr Tree) : Prop :=
  ∀ fuel, 2 * rest.length + 2 ≤ fuel → parseGo fuel root (.atLine stack) m rest = r

/-- The parser, resumed inside a line with the given state, computes `r` for
every sufficiently large fuel. -/
def RunsM (root : Tree) (stack : List Nat) (parent : Nat) (m : Nat)
    (rest : List Char) (r : Except PErr Tree) : Prop :=
  ∀ fuel, 2 * rest.length + 1 ≤ fuel → parseGo fuel root (.midLine stack parent) m rest = r

/-- Induction statement for a single serialized subtree: resuming the parser
mid-line on the dump of `k` (whose line sits under a stack of height
`S.length`, attaching at spine depth `p`) appends exactly `k` and then
continues at the start of a line with some stack entries pushed above `S`. -/
def LnodeStmt (k : Tree) : Prop :=
  ∀ (T T' : Tree) (S : List Nat) (p : Nat) (rest : List Char),
    InvTree k → S ≠ [] → appendLast T p k = some T' →
    ∃ ext : List Nat, ∀ r, RunsA T' (S ++ ext) 0 rest r →
      RunsM T S p 0 (dump k (tabs S.length) ++ rest) r

/-- Induction statement for a serialized block of siblings: parsing the dump
of the children `ks` (one line group each, at tab depth `S.length - 1`,
attaching at spine depth `p`, with arbitrary stale stack entries `ext0` above
`S`) appends exactly `ks` at `p` and continues with some stale entries. -/
def LlistStmt (ks : List Tree) : Prop :=
  ∀ (T Tfin : Tree) (S ext0 : List Nat) (p : Nat) (rest : List Char),
    (∀ k ∈ ks, InvTree k) → S ≠ [] → S.getLast? = some p →
    (T.kids = [] → S.length = 1) →
    appendAll T p ks = some Tfin →
    ∃ ext : List Nat, ∀ r, RunsA Tfin (S ++ ext) 0 rest r →
      RunsA T (S ++ ext0) 0 (dumpKids ks (tabs (S.length - 1)) ++ rest) r

/-! ## Helper lemmas -/

@[simp] theorem Tree.ty_node (ty v : List Char) (kids : List Tree) :
    (Tree.node ty v kids).ty = ty := rfl

@[simp] theorem Tree.v_node (ty v : List Char) (kids : List Tree) :
    (Tree.node ty v kids).v = v := rfl

@[simp] theorem Tree.kids_node (ty v : List Char) (kids : List Tree) :
    (Tree.node ty v kids).kids = kids := rfl

theorem Tree.clone_self (t : Tree) : t.clone t.kids = t := by
  cases t; rfl

theorem splitNl_ne_nil (v : List Char) : splitNl v ≠ [] := by
  induction v with
  | nil => simp [splitNl]
  | cons c cs ih =>
    simp only [splitNl]
    split
    · simp
    · cases h : splitNl cs with
      | nil => exact absurd h ih
      | cons a as => simp

theorem splitNl_length (v : List Char) : (splitNl v).length = v.count '\n' + 1 := by
  induction v with
  | nil => simp [splitNl]
  | cons c cs ih =>
    simp only [splitNl]
    by_cases h : c = '\n'
    · subst h
      simp [List.count_cons, ih]
    · rw [if_neg h]
      cases hs : splitNl cs with
      | nil => exact absurd hs (splitNl_ne_nil cs)
      | cons a as =>
        simp only [List.length_cons]
        rw [hs] at ih
        simp only [List.length_cons] at ih
        simp [List.count_cons, h, ih]

theorem joinNl_splitNl (v : List Char) : joinNl (splitNl v) = v := by
  induction v with
  | nil => simp [splitNl, joinNl]
  | cons c cs ih =>
    simp only [splitNl]
    by_cases h : c = '\n'
    · subst h
      rw [if_pos rfl]
      cases hs : splitNl cs with
      | nil => exact absurd hs (splitNl_ne_nil cs)
      | cons a as =>
        rw [hs] at ih
        simpa [joinNl] using ih
    · rw [if_neg h]
      cases hs : splitNl cs with
      | nil => exact absurd hs (splitNl_ne_nil cs)
      | cons a as =>
        rw [hs] at ih
        cases as with
        | nil => simpa [joinNl] using ih
        | cons b bs => simpa [joinNl] using ih

theorem mapMOpt_eq_map (f : α → Option β) (g : α → β) (l : List α)
    (h : ∀ a ∈ l, f a = some (g a)) : mapMOpt f l = some (l.map g) := by
  induction l with
  | nil => rfl
  | cons a as ih =>
    have ha := h a (by simp)
    have has : ∀ x ∈ as, f x = some (g x) := fun x hx => h x (by simp [hx])
    simp [mapMOpt, ha, ih has]

theorem flatten_map_singleton (l : List α) :
    List.flatten (l.map (fun a => [a])) = l := by
  induction l with
  | nil => rfl
  | cons a as ih => simp [ih]

theorem sizeOf_kid_lt (ty v : List Char) (kids : List Tree) (k : Tree)
    (hk : k ∈ kids) : sizeOf k < sizeOf (Tree.node ty v kids) := by
  have := List.sizeOf_lt_of_mem hk
  simp only [Tree.node.sizeOf_spec]
  omega

theorem dropWhile_head_false (p : α → Bool) :
    ∀ (l : List α) (x : α) (xs : List α), l.dropWhile p = x :: xs → p x = false := by
  intro l
  induction l with
  | nil => intro x xs h; simp [List.dropWhile] at h
  | cons a as ih =>
    intro x xs h
    by_cases hp : p a
    · rw [List.dropWhile_cons, if_pos hp] at h
      exact ih x xs h
    · rw [List.dropWhile_cons, if_neg hp] at h
      cases h
      simpa using hp

theorem pyIdx_some_ne_nil (l : List α) (i : Int) (a : α) (h : pyIdx l i = some a) :
    l ≠ [] := by
  intro hl
  subst hl
  simp only [pyIdx, List.length_nil] at h
  split at h
  · simp at h
  · simp at h

/-! ### List utilities -/

theorem takeWhile_append_all (p : α → Bool) :
    ∀ (l1 : List α) (c : α) (cs : List α), (∀ x ∈ l1, p x = true) → p c = false →
      (l1 ++ c :: cs).takeWhile p = l1 ∧ (l1 ++ c :: cs).dropWhile p = c :: cs := by
  intro l1
  induction l1 with
  | nil =>
    intro c cs _ hc
    constructor
    · simp [List.takeWhile_cons, hc]
    · simp [List.dropWhile_cons, hc]
  | cons a as ih =>
    intro c cs hall hc
    have ha : p a = true := hall a (by simp)
    have := ih c cs (fun x hx => hall x (by simp [hx])) hc
    constructor
    · simp only [List.cons_append, List.takeWhile_cons, ha]
      simp [this.1]
    · simp only [List.cons_append, List.dropWhile_cons, ha]
      simp [this.2]

theorem tabs_all (n : Nat) : ∀ x ∈ tabs n, x = '\t' := by
  intro x hx
  simp only [tabs] at hx
  exact List.eq_of_mem_replicate hx

theorem tabs_length (n : Nat) : (tabs n).length = n := by
  simp [tabs]

theorem tabs_ne_nil (n : Nat) (h : 1 ≤ n) : tabs n ≠ [] := by
  simp only [tabs]
  intro hcon
  have := congrArg List.length hcon
  simp at this
  omega

theorem get?_last (S : List Nat) (p : Nat) (h : S.getLast? = some p) :
    S.get? (S.length - 1) = some p := by
  rw [← List.getLast?_eq_get?]
  exact h

/-! ### Algebra of `appendLast` and `appendAll` -/

theorem appendLast_zero (ty v : List Char) (kids : List Tree) (k : Tree) :
    appendLast (.node ty v kids) 0 k = some (.node ty v (kids ++ [k])) := rfl

theorem appendLast_succ (ty v : List Char) (kids : List Tree) (p : Nat) (k : Tree) :
    appendLast (.node ty v kids) (p + 1) k =
      match kids.getLast? with
      | none => none
      | some last =>
        (appendLast last p k).map (fun last' => .node ty v (kids.dropLast ++ [last'])) := rfl

theorem appendLast_succ_concat (ty v : List Char) (kids : List Tree) (last : Tree)
    (p : Nat) (k : Tree) :
    appendLast (.node ty v (kids ++ [last])) (p + 1) k =
      (appendLast last p k).map (fun last' => .node ty v (kids ++ [last'])) := by
  simp [appendLast_succ]

theorem appendLast_isSome_congr :
    ∀ (p : Nat) (T : Tree) (k k' : Tree), (appendLast T p k).isSome →
      (appendLast T p k').isSome := by
  intro p
  induction p with
  | zero =>
    intro T k k' _
    obtain ⟨ty, v, kids⟩ := T
    simp [appendLast]
  | succ p ih =>
    intro T k k' h
    obtain ⟨ty, v, kids⟩ := T
    rw [appendLast_succ] at h ⊢
    cases hl : kids.getLast? with
    | none => simp only [hl] at h; simp at h
    | some last =>
      simp only [hl, Option.isSome_map'] at h ⊢
      exact ih last k k' h

theorem appendLast_root_kids_ne (p : Nat) (T T' : Tree) (k : Tree)
    (h : appendLast T p k = some T') : T'.kids ≠ [] := by
  obtain ⟨ty, v, kids⟩ := T
  cases p with
  | zero =>
    cases h
    simp
  | succ p =>
    rw [appendLast_succ] at h
    cases hl : kids.getLast? with
    | none => simp only [hl] at h; simp at h
    | some last =>
      simp only [hl] at h
      cases ha : appendLast last p k with
      | none => simp only [ha] at h; simp at h
      | some last' =>
        simp only [ha, Option.map_some'] at h
        cases h
        simp

theorem appendLast_chain :
    ∀ (p : Nat) (T : Tree) (a b : List Char) (ks : List Tree) (k : Tree) (T' : Tree),
      appendLast T p (.node a b ks) = some T' →
      ∃ T'', appendLast T' (p + 1) k = some T'' ∧
        appendLast T p (.node a b (ks ++ [k])) = some T'' := by
  intro p
  induction p with
  | zero =>
    intro T a b ks k T' h
    obtain ⟨ty, v, kids⟩ := T
    rw [appendLast_zero] at h
    cases h
    refine ⟨.node ty v (kids ++ [Tree.node a b (ks ++ [k])]), ?_, ?_⟩
    · rw [appendLast_succ_concat, appendLast_zero]
      rfl
    · rw [appendLast_zero]
  | succ p ih =>
    intro T a b ks k T' h
    obtain ⟨ty, v, kids⟩ := T
    rw [appendLast_succ] at h
    cases hl : kids.getLast? with
    | none => simp only [hl] at h; simp at h
    | some last =>
      simp only [hl] at h
      cases ha : appendLast last p (.node a b ks) with
      | none => simp only [ha] at h; simp at h
      | some last' =>
        simp only [ha, Option.map_some'] at h
        cases h
        obtain ⟨last'', h1, h2⟩ := ih last a b ks k last' ha
        refine ⟨.node ty v (kids.dropLast ++ [last'']), ?_, ?_⟩
        · rw [appendLast_succ_concat, h1]
          rfl
        · rw [appendLast_succ]
          simp only [hl, h2, Option.map_some']

theorem appendAll_after_append (p : Nat) (T : Tree) (a b : List Char) :
    ∀ (ks ks0 : List Tree) (T1 : Tree),
      appendLast T p (.node a b ks0) = some T1 →
      ∃ T2, appendAll T1 (p + 1) ks = some T2 ∧
        appendLast T p (.node a b (ks0 ++ ks)) = some T2 := by
  intro ks
  induction ks with
  | nil =>
    intro ks0 T1 h
    exact ⟨T1, rfl, by simpa using h⟩
  | cons k ks ih =>
    intro ks0 T1 h
    obtain ⟨T1', h1, h2⟩ := appendLast_chain p T a b ks0 k T1 h
    obtain ⟨T2, h3, h4⟩ := ih (ks0 ++ [k]) T1' h2
    refine ⟨T2, ?_, ?_⟩
    · simp only [appendAll, h1, h3]
    · simpa using h4

theorem appendAll_zero (a b : List Char) :
    ∀ (ks kids : List Tree), appendAll (.node a b kids) 0 ks = some (.node a b (kids ++ ks)) := by
  intro ks
  induction ks with
  | nil => intro kids; simp [appendAll]
  | cons k ks ih =>
    intro kids
    simp only [appendAll, appendLast_zero, ih]
    simp

theorem appendLast_ty_v (p : Nat) (T T' k : Tree) (h : appendLast T p k = some T') :
    T'.ty = T.ty ∧ T'.v = T.v := by
  obtain ⟨ty, v, kids⟩ := T
  cases p with
  | zero =>
    rw [appendLast_zero] at h
    cases h
    exact ⟨rfl, rfl⟩
  | succ p =>
    rw [appendLast_succ] at h
    cases hl : kids.getLast? with
    | none => simp only [hl] at h; simp at h
    | some last =>
      simp only [hl] at h
      cases ha : appendLast last p k with
      | none => simp only [ha] at h; simp at h
      | some last' =>
        simp only [ha, Option.map_some'] at h
        cases h
        exact ⟨rfl, rfl⟩

theorem appendLast_inv : ∀ (p : Nat) (T T' k : Tree), InvTree T → InvTree k →
    appendLast T p k = some T' → InvTree T' := by
  intro p
  induction p with
  | zero =>
    intro T T' k hT hk h
    obtain ⟨ty, v, kids⟩ := T
    rw [appendLast_zero] at h
    cases h
    cases hT with
    | mk _ _ _ h1 h2 h3 h4 =>
      refine InvTree.mk ty v (kids ++ [k]) h1 h2 h3 ?_
      intro x hx
      rcases List.mem_append.mp hx with hx | hx
      · exact h4 x hx
      · rw [List.mem_singleton.mp hx]
        exact hk
  | succ p ih =>
    intro T T' k hT hk h
    obtain ⟨ty, v, kids⟩ := T
    rw [appendLast_succ] at h
    cases hl : kids.getLast? with
    | none => simp only [hl] at h; simp at h
    | some last =>
      simp only [hl] at h
      cases ha : appendLast last p k with
      | none => simp only [ha] at h; simp at h
      | some last' =>
        simp only [ha, Option.map_some'] at h
        cases h
        cases hT with
        | mk _ _ _ h1 h2 h3 h4 =>
          have hlast : InvTree last := h4 last (List.mem_of_getLast?_eq_some hl)
          have hlast' := ih last last' k hlast hk ha
          refine InvTree.mk ty v (kids.dropLast ++ [last']) h1 h2 h3 ?_
          intro x hx
          rcases List.mem_append.mp hx with hx | hx
          · exact h4 x (List.dropLast_subset kids hx)
          · rw [List.mem_singleton.mp hx]
            exact hlast'

/-! ### One-step unfolding lemmas for `parseGo` -/

theorem parseGo_atLine_nil (fuel : Nat) (root : Tree) (S : List Nat) (m : Nat) :
    parseGo (fuel + 1) root (.atLine S) m [] = .ok root := rfl

theorem parseGo_atLine_cons (fuel : Nat) (root : Tree) (S : List Nat) (m : Nat)
    (c : Char) (cs : List Char) :
    parseGo (fuel + 1) root (.atLine S) m (c :: cs) =
      (match lineStartStep S (indentOf root m (c :: cs)) (afterTabs (c :: cs)) with
       | .error e => .error e
       | .ok restA =>
         match pyIdx (pySliceTo S (indentOf root m (c :: cs) + 1))
             (indentOf root m (c :: cs)) with
         | none => .error .crash
         | some parent =>
             parseGo fuel root
               (.midLine (pySliceTo S (indentOf root m (c :: cs) + 1)) parent)
               (minIndentUpd root m (c :: cs)) restA) := rfl

theorem parseGo_midLine_nil (fuel : Nat) (root : Tree) (S : List Nat) (p m : Nat) :
    parseGo (fuel + 1) root (.midLine S p) m [] =
      if S.length > 0 then .error .unexpectedEof else .ok root := rfl

theorem parseGo_midLine_nl (fuel : Nat) (root : Tree) (S : List Nat) (p m : Nat)
    (cs : List Char) :
    parseGo (fuel + 1) root (.midLine S p) m ('\n' :: cs) =
      parseGo fuel root (.atLine (S ++ [p])) m cs := rfl

theorem parseGo_midLine_bs (fuel : Nat) (root : Tree) (S : List Nat) (p m : Nat)
    (cs : List Char) :
    parseGo (fuel + 1) root (.midLine S p) m ('\\' :: cs) =
      (match appendLast root p (.node [] (cs.takeWhile (fun x => x ≠ '\n')) []) with
       | none => .error .crash
       | some root' =>
         match cs.dropWhile (fun x => x ≠ '\n') with
         | [] => if S.length > 0 then .error .unexpectedEof else .ok root'
         | _ :: rest2 => parseGo fuel root' (.atLine (S ++ [p + 1])) m rest2) := rfl

theorem parseGo_midLine_sep (fuel : Nat) (root : Tree) (S : List Nat) (p m : Nat)
    (c : Char) (cs : List Char) (h1 : ¬ c = '\n') (h2 : ¬ c = '\\')
    (h3 : isSepChar c = true) :
    parseGo (fuel + 1) root (.midLine S p) m (c :: cs) =
      if ((c :: cs).dropWhile isSepChar).contains '\n' then .error .wrongSeparator
      else .error .crash := by
  simp [parseGo, h1, h2, h3]

theorem parseGo_midLine_tok (fuel : Nat) (root : Tree) (S : List Nat) (p m : Nat)
    (c : Char) (cs : List Char) (h1 : ¬ c = '\n') (h2 : ¬ c = '\\')
    (h3 : isSepChar c = false) :
    parseGo (fuel + 1) root (.midLine S p) m (c :: cs) =
      (match appendLast root p
          (.node ((c :: cs).takeWhile (fun x => ¬ isTypeEndChar x)) [] []) with
       | none => .error .crash
       | some root' =>
         match (c :: cs).dropWhile (fun x => ¬ isTypeEndChar x) with
         | ' ' :: rest2 => parseGo fuel root' (.midLine S (p + 1)) m rest2
         | _ => parseGo fuel root' (.midLine S (p + 1)) m
             ((c :: cs).dropWhile (fun x => ¬ isTypeEndChar x))) := by
  simp [parseGo, h1, h2, h3]

theorem lineStartStep_ok_shape (S : List Nat) (i : Int) (r1 restA : List Char)
    (h : lineStartStep S i r1 = .ok restA) : restA = r1 ∨ restA = [] := by
  unfold lineStartStep at h
  split at h
  · split at h
    · split at h
      · rename_i hemp
        cases h
        right
        simpa using hemp
      · simp at h
    · simp at h
  · cases h
    left
    rfl

theorem nl_last (rest2 : List Char) (h : rest2 = [] ∨ rest2.getLast? = some '\n') :
    ('\n' :: rest2).getLast? = some '\n' := by
  rcases h with rfl | h
  · rfl
  · cases rest2 with
    | nil => rfl
    | cons a as => rw [List.getLast?_cons_cons]; exact h

theorem parseGo_midLine_bs_nil (fuel : Nat) (root root' : Tree) (S : List Nat)
    (p m : Nat) (cs : List Char)
    (ha : appendLast root p (.node [] (cs.takeWhile (fun x => x ≠ '\n')) []) = some root')
    (hd : cs.dropWhile (fun x => x ≠ '\n') = []) :
    parseGo (fuel + 1) root (.midLine S p) m ('\\' :: cs) =
      if S.length > 0 then .error .unexpectedEof else .ok root' := by
  rw [parseGo_midLine_bs, ha, hd]

theorem parseGo_midLine_bs_cons (fuel : Nat) (root root' : Tree) (S : List Nat)
    (p m : Nat) (cs : List Char) (d : Char) (rest2 : List Char)
    (ha : appendLast root p (.node [] (cs.takeWhile (fun x => x ≠ '\n')) []) = some root')
    (hd : cs.dropWhile (fun x => x ≠ '\n') = d :: rest2) :
    parseGo (fuel + 1) root (.midLine S p) m ('\\' :: cs) =
      parseGo fuel root' (.atLine (S ++ [p + 1])) m rest2 := by
  rw [parseGo_midLine_bs, ha, hd]

theorem parseGo_midLine_tok_sp (fuel : Nat) (root root' : Tree) (S : List Nat)
    (p m : Nat) (c : Char) (cs rest2 : List Char) (h1 : ¬ c = '\n') (h2 : ¬ c = '\\')
    (h3 : isSepChar c = false)
    (ha : appendLast root p
      (.node ((c :: cs).takeWhile (fun x => ¬ isTypeEndChar x)) [] []) = some root')
    (hd : (c :: cs).dropWhile (fun x => ¬ isTypeEndChar x) = ' ' :: rest2) :
    parseGo (fuel + 1) root (.midLine S p) m (c :: cs) =
      parseGo fuel root' (.midLine S (p + 1)) m rest2 := by
  rw [parseGo_midLine_tok _ _ _ _ _ _ _ h1 h2 h3, ha, hd]
  rfl

theorem parseGo_midLine_tok_nosp (fuel : Nat) (root root' : Tree) (S : List Nat)
    (p m : Nat) (c d : Char) (cs rest2 : List Char) (h1 : ¬ c = '\n') (h2 : ¬ c = '\\')
    (h3 : isSepChar c = false)
    (ha : appendLast root p
      (.node ((c :: cs).takeWhile (fun x => ¬ isTypeEndChar x)) [] []) = some root')
    (hd : (c :: cs).dropWhile (fun x => ¬ isTypeEndChar x) = d :: rest2)
    (hdne : d ≠ ' ') :
    parseGo (fuel + 1) root (.midLine S p) m (c :: cs) =
      parseGo fuel root' (.midLine S (p + 1)) m (d :: rest2) := by
  rw [parseGo_midLine_tok _ _ _ _ _ _ _ h1 h2 h3, ha, hd]
  split
  · rename_i heq
    exact absurd heq (by simp)
  · rename_i r2 heq
    have hr : r2 = root' := by
      cases heq
      rfl
    subst hr
    split
    · rename_i r3 heq2
      cases heq2
      exact absurd rfl hdne
    · rfl

theorem parseGo_midLine_tok_nil (fuel : Nat) (root root' : Tree) (S : List Nat)
    (p m : Nat) (c : Char) (cs : List Char) (h1 : ¬ c = '\n') (h2 : ¬ c = '\\')
    (h3 : isSepChar c = false)
    (ha : appendLast root p
      (.node ((c :: cs).takeWhile (fun x => ¬ isTypeEndChar x)) [] []) = some root')
    (hd : (c :: cs).dropWhile (fun x => ¬ isTypeEndChar x) = []) :
    parseGo (fuel + 1) root (.midLine S p) m (c :: cs) =
      parseGo fuel root' (.midLine S (p + 1)) m [] := by
  rw [parseGo_midLine_tok _ _ _ _ _ _ _ h1 h2 h3, ha, hd]

/-! ### Unfolding lemmas for the serializer -/

theorem dumpKids_nil (pfx : List Char) : dumpKids [] pfx = [] := by
  simp [dumpKids]

theorem dumpKids_cons (k : Tree) (ks : List Tree) (pfx : List Char) :
    dumpKids (k :: ks) pfx = (pfx ++ dump k (pfx ++ ['\t'])) ++ dumpKids ks pfx := by
  simp [dumpKids]

theorem dump_struct_single (ty v : List Char) (k : Tree) (pfx : List Char)
    (hty : ty ≠ []) (hpfx : pfx ≠ []) :
    dump (.node ty v [k]) pfx = ty ++ ' ' :: dump k pfx := by
  rw [dump]
  simp [hty, hpfx]

theorem dump_struct_multi (ty v : List Char) (kids : List Tree) (pfx : List Char)
    (hty : ty ≠ []) (hpfx : pfx ≠ []) (hkids : ∀ k, kids ≠ [k]) :
    dump (.node ty v kids) pfx = ty ++ '\n' :: dumpKids kids pfx := by
  cases kids with
  | nil =>
    rw [dump]
    simp [hty, hpfx]
  | cons k1 rest =>
    cases rest with
    | nil => exact absurd rfl (hkids k1)
    | cons k2 rest2 =>
      rw [dump]
      simp [hty, hpfx]

theorem dump_leaf (v : List Char) (kids : List Tree) (pfx : List Char) (hpfx : pfx ≠ []) :
    dump (.node [] v kids) pfx = '\\' :: (v ++ '\n' :: dumpKids kids pfx) := by
  rw [dump]
  simp [hpfx]

theorem isTypeEndChar_props (c : Char) (h : isTypeEndChar c = false) :
    ¬ c = '\\' ∧ ¬ c = ' ' ∧ ¬ c = '\t' ∧ ¬ c = '\n' := by
  simp only [isTypeEndChar, Bool.or_eq_false_iff, decide_eq_false_iff_not] at h
  exact ⟨h.1.1.1, h.1.1.2, h.1.2, h.2⟩

theorem dump_head (k : Tree) (pfx : List Char) (hInv : InvTree k) (hpfx : pfx ≠ []) :
    ∃ c cs, dump k pfx = c :: cs ∧ c ≠ '\t' := by
  obtain ⟨ty, v, kids⟩ := k
  cases ty with
  | nil =>
    exact ⟨'\\', _, dump_leaf v kids pfx hpfx, by decide⟩
  | cons c0 ty' =>
    have hc0 : isTypeEndChar c0 = false := by
      cases hInv with
      | mk _ _ _ _ h2 _ _ => exact h2 c0 (by simp)
    have hc0t := (isTypeEndChar_props c0 hc0).2.2.1
    cases kids with
    | nil =>
      refine ⟨c0, ty' ++ '\n' :: dumpKids [] pfx, ?_, hc0t⟩
      rw [dump_struct_multi _ v [] pfx (by simp) hpfx (by simp), List.cons_append]
    | cons k1 rest =>
      cases rest with
      | nil =>
        refine ⟨c0, ty' ++ ' ' :: dump k1 pfx, ?_, hc0t⟩
        rw [dump_struct_single _ v k1 pfx (by simp) hpfx, List.cons_append]
      | cons k2 rest2 =>
        refine ⟨c0, ty' ++ '\n' :: dumpKids (k1 :: k2 :: rest2) pfx, ?_, hc0t⟩
        rw [dump_struct_multi _ v _ pfx (by simp) hpfx (by simp), List.cons_append]

/-! ### Parser steps over serialized fragments -/

theorem lineStartStep_normal (stack : List Nat) (indent : Int) (r1 : List Char)
    (h0 : 0 ≤ indent) (h1 : indent < (stack.length : Int)) :
    lineStartStep stack indent r1 = .ok r1 := by
  unfold lineStartStep
  rw [if_neg]
  push_neg
  exact ⟨h0, h1⟩

theorem parseGo_atLine_ne (fuel : Nat) (root : Tree) (S : List Nat) (m : Nat)
    (rest : List Char) (hne : rest ≠ []) :
    parseGo (fuel + 1) root (.atLine S) m rest =
      (match lineStartStep S (indentOf root m rest) (afterTabs rest) with
       | .error e => .error e
       | .ok restA =>
         match pyIdx (pySliceTo S (indentOf root m rest + 1)) (indentOf root m rest) with
         | none => .error .crash
         | some parent =>
             parseGo fuel root
               (.midLine (pySliceTo S (indentOf root m rest + 1)) parent)
               (minIndentUpd root m rest) restA) := by
  cases rest with
  | nil => exact absurd rfl hne
  | cons c cs => exact parseGo_atLine_cons fuel root S m c cs

theorem nTabs_afterTabs (i : Nat) (c : Char) (cs : List Char) (hc : c ≠ '\t') :
    nTabsOf (tabs i ++ c :: cs) = i ∧ afterTabs (tabs i ++ c :: cs) = c :: cs := by
  have h := takeWhile_append_all (fun x => x = '\t') (tabs i) c cs
    (by intro x hx; simp [tabs_all i x hx]) (by simp [hc])
  constructor
  · simp only [nTabsOf, h.1, tabs_length]
  · simp only [afterTabs, h.2]

theorem runs_token_sp (T T1 : Tree) (S : List Nat) (p m : Nat) (ty X : List Char)
    (r : Except PErr Tree) (hty : ty ≠ [])
    (hclean : ∀ c ∈ ty, isTypeEndChar c = false)
    (hT : appendLast T p (.node ty [] []) = some T1)
    (h : RunsM T1 S (p + 1) m X r) :
    RunsM T S p m (ty ++ ' ' :: X) r := by
  intro fuel hf
  obtain ⟨f, rfl⟩ : ∃ f, fuel = f + 1 := ⟨fuel - 1, by omega⟩
  obtain ⟨c0, ty', rfl⟩ : ∃ c0 ty', ty = c0 :: ty' := by
    cases ty with
    | nil => exact absurd rfl hty
    | cons a as => exact ⟨a, as, rfl⟩
  have hc0 := hclean c0 (by simp)
  obtain ⟨hbs, hsp, htb, hnl⟩ := isTypeEndChar_props c0 hc0
  have htw := takeWhile_append_all (fun x => ¬ isTypeEndChar x) (c0 :: ty') ' ' X
    (by intro x hx; simpa using hclean x hx) (by simp [isTypeEndChar])
  rw [List.cons_append]
  rw [parseGo_midLine_tok_sp f T T1 S p m c0 (ty' ++ ' ' :: X) X hnl hbs
    (by simp [isSepChar, hsp, htb]) ?_ ?_]
  · apply h
    simp only [List.length_cons, List.length_append] at hf
    omega
  · rw [← List.cons_append]
    rw [htw.1]
    exact hT
  · rw [← List.cons_append]
    exact htw.2

theorem runs_token_nl (T T1 : Tree) (S : List Nat) (p m : Nat) (ty X : List Char)
    (r : Except PErr Tree) (hty : ty ≠ [])
    (hclean : ∀ c ∈ ty, isTypeEndChar c = false)
    (hT : appendLast T p (.node ty [] []) = some T1)
    (h : RunsA T1 (S ++ [p + 1]) m X r) :
    RunsM T S p m (ty ++ '\n' :: X) r := by
  intro fuel hf
  obtain ⟨f, rfl⟩ : ∃ f, fuel = f + 2 := by
    refine ⟨fuel - 2, ?_⟩
    have hty1 : 1 ≤ ty.length := by
      cases ty with
      | nil => exact absurd rfl hty
      | cons a as => simp
    simp only [List.length_append, List.length_cons] at hf
    omega
  obtain ⟨c0, ty', rfl⟩ : ∃ c0 ty', ty = c0 :: ty' := by
    cases ty with
    | nil => exact absurd rfl hty
    | cons a as => exact ⟨a, as, rfl⟩
  have hc0 := hclean c0 (by simp)
  obtain ⟨hbs, hsp, htb, hnl⟩ := isTypeEndChar_props c0 hc0
  have htw := takeWhile_append_all (fun x => ¬ isTypeEndChar x) (c0 :: ty') '\n' X
    (by intro x hx; simpa using hclean x hx) (by simp [isTypeEndChar])
  rw [List.cons_append]
  rw [parseGo_midLine_tok_nosp (f + 1) T T1 S p m c0 '\n' (ty' ++ '\n' :: X) X hnl hbs
    (by simp [isSepChar, hsp, htb]) ?_ ?_ (by decide)]
  · rw [parseGo_midLine_nl]
    apply h
    simp only [List.length_cons, List.length_append] at hf
    omega
  · rw [← List.cons_append]
    rw [htw.1]
    exact hT
  · rw [← List.cons_append]
    exact htw.2

theorem runs_leaf (T T1 : Tree) (S : List Nat) (p m : Nat) (v X : List Char)
    (r : Except PErr Tree) (hv : '\n' ∉ v)
    (hT : appendLast T p (.node [] v []) = some T1)
    (h : RunsA T1 (S ++ [p + 1]) m X r) :
    RunsM T S p m ('\\' :: (v ++ '\n' :: X)) r := by
  intro fuel hf
  obtain ⟨f, rfl⟩ : ∃ f, fuel = f + 1 := ⟨fuel - 1, by omega⟩
  have htw := takeWhile_append_all (fun x => x ≠ '\n') v '\n' X
    (by
      intro x hx
      simp only [decide_eq_true_eq, ne_eq]
      intro hcon
      rw [hcon] at hx
      exact hv hx)
    (by simp)
  rw [parseGo_midLine_bs_cons f T T1 S p m (v ++ '\n' :: X) '\n' X ?_ ?_]
  · apply h
    simp only [List.length_cons, List.length_append] at hf
    omega
  · rw [htw.1]
    exact hT
  · exact htw.2

theorem runs_line_entry (T : Tree) (S ext0 : List Nat) (p : Nat) (c : Char)
    (cs : List Char) (r : Except PErr Tree)
    (hS : S ≠ []) (hp : S.getLast? = some p) (hkids : T.kids = [] → S.length = 1)
    (hc : c ≠ '\t')
    (h : RunsM T S p 0 (c :: cs) r) :
    RunsA T (S ++ ext0) 0 (tabs (S.length - 1) ++ c :: cs) r := by
  intro fuel hf
  obtain ⟨f, rfl⟩ : ∃ f, fuel = f + 1 := ⟨fuel - 1, by omega⟩
  have hne : tabs (S.length - 1) ++ c :: cs ≠ [] := by
    intro hcon
    have := congrArg List.length hcon
    simp at this
  rw [parseGo_atLine_ne f T (S ++ ext0) 0 _ hne]
  have hta := nTabs_afterTabs (S.length - 1) c cs hc
  have hmi : minIndentUpd T 0 (tabs (S.length - 1) ++ c :: cs) = 0 := by
    unfold minIndentUpd
    split
    · rename_i hke
      have := hkids (by simpa using hke)
      rw [hta.1, this]
    · rfl
  have hio : indentOf T 0 (tabs (S.length - 1) ++ c :: cs) = ((S.length - 1 : Nat) : Int) := by
    unfold indentOf
    rw [hmi, hta.1]
    simp
  have hSlen : 1 ≤ S.length := by
    cases S with
    | nil => exact absurd rfl hS
    | cons a as => simp
  rw [hio]
  rw [lineStartStep_normal _ _ _ (by omega) (by simp; omega)]
  have hslice : pySliceTo (S ++ ext0) (((S.length - 1 : Nat) : Int) + 1) = S := by
    unfold pySliceTo
    rw [if_pos (by omega)]
    have h1 : (((S.length - 1 : Nat) : Int) + 1).toNat = S.length := by omega
    rw [h1]
    exact List.take_left S ext0
  rw [hslice]
  have hidx : pyIdx S ((S.length - 1 : Nat) : Int) = some p := by
    have h0 : ¬ ((S.length - 1 : Nat) : Int) < 0 := by omega
    have h1 : (0 : Int) ≤ ((S.length - 1 : Nat) : Int) := by omega
    simp only [pyIdx, if_neg h0, if_pos h1]
    have h2 : ((S.length - 1 : Nat) : Int).toNat = S.length - 1 := by omega
    rw [h2]
    exact get?_last S p hp
  rw [hidx, hta.2, hmi]
  show parseGo f T (PState.midLine S p) 0 (c :: cs) = r
  apply h
  simp only [List.length_append, tabs_length, List.length_cons] at hf
  simp only [List.length_cons]
  omega

theorem runs_nil (T : Tree) (S : List Nat) (m : Nat) : RunsA T S m [] (.ok T) := by
  intro fuel hf
  obtain ⟨f, rfl⟩ : ∃ f, fuel = f + 1 := ⟨fuel - 1, by omega⟩
  exact parseGo_atLine_nil f T S m

theorem hackSelf_nil_belt (hackRec : Tree → Option (List Tree)) (t : Tree) :
    hackSelf hackRec [] t = (hackRec t).map (fun ks => [t.clone ks]) := rfl

theorem hackSelf_id_belt (hackRec : Tree → Option (List Tree)) (t : Tree) :
    hackSelf hackRec idBelt t = (hackRec t).map (fun ks => [t.clone ks]) := by
  obtain ⟨ty, v, kids⟩ := t
  cases ty <;> rfl

/-! ## Claim theorems: the tree value type and its edit operations -/

/-- Claim C2 (code_bug evidence): evaluating the string-segment `insert` on a
node with the single non-matching child `z`, inserting `x` along the path
`"a","b"`, shows that the non-matching child is recursed into and its
modified copy appended after the original — the child is duplicated and no
`"a"` node is synthesized, because the Python loop body sets
`replaced = True` and recurses for every child instead of only matching
ones. -/
theorem insert_str_duplicates_nonmatching_child :
    (Tree.node [] [] [Tree.node ['z'] [] []]).insert
      (some (Tree.node ['x'] [] [])) [.str ['a'], .str ['b']]
    = .ok (some (Tree.node [] [] [Tree.node ['z'] [] [],
        Tree.node ['z'] [] [Tree.node ['x'] [] []]])) := rfl

/-- Claim C3 (counterexample): a type containing a space in a non-initial
position is accepted by `Tree.struct` without error, refuting the claim that
any type containing a space/tab/newline/backslash anywhere raises
`TreeError`. -/
theorem struct_embedded_space_accepted :
    Tree.struct "a b".data [] = .ok (Tree.node "a b".data [] []) := rfl

/-- Claim C3 (amended): `Tree.struct` raises `TreeError` exactly when the
FIRST character of the type is a space, tab, newline or backslash (Python's
`re.match` is anchored at the start); otherwise it succeeds and returns a
node with the given type, empty value, and the given kids. -/
theorem struct_checks_first_char_only (ty : List Char) (kids : List Tree) :
    (Tree.struct ty kids = .error .treeError ↔
      ∃ c ∈ ty.take 1, c = ' ' ∨ c = '\n' ∨ c = '\t' ∨ c = '\\') ∧
    (¬(∃ c ∈ ty.take 1, c = ' ' ∨ c = '\n' ∨ c = '\t' ∨ c = '\\') →
      Tree.struct ty kids = .ok (Tree.node ty [] kids)) := by
  cases ty with
  | nil => simp [Tree.struct]
  | cons c cs =>
    by_cases h : c = ' ' ∨ c = '\n' ∨ c = '\t' ∨ c = '\\'
    · simp [Tree.struct, h]
    · simp [Tree.struct, h]

theorem struct_checks_first_char_only_witness :
    Tree.struct "ok".data [] = .ok (Tree.node "ok".data [] []) :=
  (struct_checks_first_char_only "ok".data []).2 (by decide)

/-- Claim C4 (code_bug evidence): `select` with an unbound segment raises a
Python `TypeError` whenever a candidate does not have exactly one child
(`next_.append(*item.kids)` passes `list.append` zero or several arguments),
refuting the claim that the unbound segment flattens all children and never
raises. -/
theorem select_unbound_raises_typeError :
    (Tree.node [] [] []).select [.unbound] = .error .typeError ∧
    (Tree.node [] [] [Tree.node ['a'] [] [],
      Tree.node ['b'] [] []]).select [.unbound] = .error .typeError ∧
    (Tree.node [] [] [Tree.node ['a'] [] []]).select [.unbound]
      = .ok (Tree.node [] [] [Tree.node ['a'] [] []]) :=
  ⟨rfl, rfl, rfl⟩

/-- Claim C5 (code_bug evidence): `insert` with an integer segment `i` on a
node with fewer than `i+1` children raises a Python `IndexError` (the read
`sub[type_]` is out of range; the `or self.list_(...)` padding alternative is
dead code because a `Tree` is always truthy), refuting the claim that the
children list is padded with an empty wrap node. -/
theorem insert_idx_out_of_range_raises :
    (Tree.node [] [] []).insert (some (Tree.node ['x'] [] [])) [.idx 0]
      = .error .indexError ∧
    (Tree.node [] [] [Tree.node ['a'] [] []]).insert
      (some (Tree.node ['x'] [] [])) [.idx 1] = .error .indexError :=
  ⟨rfl, rfl⟩

/-- Claim C9: `text` is a left inverse of `data` (for the claim's empty-kids
call), and when the value contains a newline the built node has an empty
value and one untyped leaf child per line (the `splitNl` chunks, whose count
is the newline count plus one), with the supplied kids appended after. -/
theorem data_text_roundtrip (v : List Char) (kids : List Tree) :
    Tree.text (Tree.data v []) = v ∧
    ('\n' ∈ v → Tree.data v kids =
      Tree.node [] [] ((splitNl v).map (fun chunk => Tree.node [] chunk []) ++ kids)) ∧
    (splitNl v).length = v.count '\n' + 1 := by
  refine ⟨?_, ?_, splitNl_length v⟩
  · by_cases h : (splitNl v).length > 1
    · simp only [Tree.data, h, if_pos]
      simp only [Tree.text, Tree.v_node, Tree.kids_node, List.append_nil,
        List.filterMap_map]
      have hfun : (fun x : List Char =>
          if (Tree.node [] x []).ty = [] then some (Tree.node [] x []).v else none)
          = fun x : List Char => some x := by
        funext x; rfl
      rw [show ((fun kid : Tree => if kid.ty = [] then some kid.v else none) ∘
          fun chunk : List Char => Tree.node [] chunk [])
          = fun x : List Char => some x from hfun]
      have hfm : List.filterMap (fun x : List Char => some x) (splitNl v)
          = splitNl v := by simp
      rw [hfm]
      simpa using joinNl_splitNl v
    · simp only [Tree.data, h, if_neg, if_false]
      simp [Tree.text, joinNl]
  · intro hv
    have : (splitNl v).length > 1 := by
      have hc : 0 < v.count '\n' := List.count_pos_iff.mpr hv
      have := splitNl_length v
      omega
    simp [Tree.data, this]

theorem data_text_roundtrip_witness :
    Tree.data "a\nb".data [] =
      Tree.node [] [] ((splitNl "a\nb".data).map (fun chunk => Tree.node [] chunk []) ++ []) :=
  (data_text_roundtrip "a\nb".data []).2.1 (by decide)

/-! ## Claim theorems: the rewrite engine -/

/-- Claim C8: `hack` with an empty belt, or with a belt whose only entry maps
the empty-string wildcard to the identity-clone handler, reproduces the input
tree unchanged: the resulting sequence is exactly the node's children (each
child is kept by the default/identity handler, which clones it with its own
children recursively hacked).  `fuel` only needs to dominate the tree size. -/
theorem hack_default_reproduces (t : Tree) (fuel : Nat) (h : sizeOf t ≤ fuel) :
    hack fuel [] t = some t.kids ∧ hack fuel idBelt t = some t.kids := by
  induction fuel generalizing t with
  | zero =>
    obtain ⟨ty, v, kids⟩ := t
    simp only [Tree.node.sizeOf_spec] at h
    omega
  | succ fuel ih =>
    obtain ⟨ty, v, kids⟩ := t
    have hkid : ∀ belt, (belt = [] ∨ belt = idBelt) →
        (∀ hackRec k, hackSelf hackRec belt k
          = (hackRec k).map (fun ks => [k.clone ks])) →
        ∀ k ∈ kids, hackSelf (hack fuel belt) belt k = some [k] := by
      intro belt hb hbelt k hk
      have hsz : sizeOf k ≤ fuel := by
        have := sizeOf_kid_lt ty v kids k hk
        omega
      have hrec : hack fuel belt k = some k.kids := by
        rcases ih k hsz with ⟨h1, h2⟩
        rcases hb with rfl | rfl
        · exact h1
        · exact h2
      rw [hbelt, hrec]
      simp [Tree.clone_self]
    constructor
    · have hk := hkid [] (Or.inl rfl) (fun hr k => hackSelf_nil_belt hr k)
      simp only [hack, Tree.kids_node]
      rw [mapMOpt_eq_map _ (fun k => [k]) kids hk]
      simp [flatten_map_singleton]
    · have hk := hkid idBelt (Or.inr rfl) (fun hr k => hackSelf_id_belt hr k)
      simp only [hack, Tree.kids_node]
      rw [mapMOpt_eq_map _ (fun k => [k]) kids hk]
      simp [flatten_map_singleton]

theorem hack_default_reproduces_witness :
    hack 1000 [] (Tree.node [] [] [Tree.node ['a'] [] [Tree.node ['b'] [] []]])
      = some [Tree.node ['a'] [] [Tree.node ['b'] [] []]] ∧
    hack 1000 idBelt (Tree.node [] [] [Tree.node ['a'] [] [Tree.node ['b'] [] []]])
      = some [Tree.node ['a'] [] [Tree.node ['b'] [] []]] :=
  hack_default_reproduces _ 1000 (by decide)

/-! ## Claim theorems: concrete parser behaviour -/

/-- Claim C10: parsing the empty string succeeds without any error and
returns the root list node with empty type, empty value and no children. -/
theorem parse_empty_string_ok : string_to_tree [] = .ok (Tree.node [] [] []) := rfl

/-- Claim C7 (counterexample): the input whose first line is two tabs
followed by `a` parses successfully (no too-many-tabs error): the first
line's leading tabs establish the document's base indent. -/
theorem first_line_two_tabs_parses :
    string_to_tree "\t\ta\n".data = .ok (Tree.node [] [] [Tree.node ['a'] [] []]) := rfl

/-- Claim C7 (amended): the first line establishes the base indent, so the
first-line input of two tabs and `a` parses successfully to a root with the
single structural child `a`; the too-many-tabs error arises when a LATER
line's effective depth reaches beyond the parse stack, as for `a` followed by
a doubly-indented `b`. -/
theorem base_indent_first_line_too_many_tabs_later :
    string_to_tree "\t\ta\n".data = .ok (Tree.node [] [] [Tree.node ['a'] [] []]) ∧
    string_to_tree "a\n\t\tb\n".data = .error .tooManyTabs :=
  ⟨rfl, rfl⟩

/-- Claim C6 (counterexample): two non-empty inputs missing the final
newline that fail with errors other than unexpected-EOF: a double space with
no later newline reaches `str.index('\n', pos)` and raises `ValueError`
(modelled as `crash`), and an over-indented second line raises too-many-tabs
first. -/
theorem missing_newline_not_always_eof_error :
    string_to_tree "a  b".data = .error .crash ∧
    string_to_tree "a\n\t\tb".data = .error .tooManyTabs :=
  ⟨rfl, rfl⟩

/-- If the parser loop returns a tree, its input was empty or ended in a
newline: an `atLine` state accepts the empty input, while a `midLine` state
(with the non-empty stack every reachable `midLine` has) must still consume a
newline before the line can end. -/
theorem parseGo_ok_ends_nl (fuel : Nat) : ∀ (root : Tree) (st : PState) (m : Nat)
    (rest : List Char) (t : Tree), parseGo fuel root st m rest = .ok t →
    (∀ S, st = .atLine S → rest = [] ∨ rest.getLast? = some '\n') ∧
    (∀ S p, st = .midLine S p → S ≠ [] → rest ≠ [] ∧ rest.getLast? = some '\n') := by
  induction fuel with
  | zero =>
    intro root st m rest t h
    simp [parseGo] at h
  | succ fuel ih =>
    intro root st m rest t h
    constructor
    · rintro S rfl
      cases rest with
      | nil => exact Or.inl rfl
      | cons c cs =>
        right
        rw [parseGo_atLine_cons] at h
        cases hls : lineStartStep S (indentOf root m (c :: cs)) (afterTabs (c :: cs)) with
        | error e => rw [hls] at h; simp at h
        | ok restA =>
          rw [hls] at h
          cases hpi : pyIdx (pySliceTo S (indentOf root m (c :: cs) + 1))
              (indentOf root m (c :: cs)) with
          | none => rw [hpi] at h; simp at h
          | some parent =>
            rw [hpi] at h
            have hS' := pyIdx_some_ne_nil _ _ _ hpi
            have hM := (ih root _ _ restA t h).2 _ parent rfl hS'
            rcases lineStartStep_ok_shape _ _ _ _ hls with hra | hra
            · rw [hra] at hM
              simp only [afterTabs] at hM
              rw [← List.takeWhile_append_dropWhile (p := fun x => x = '\t') (l := c :: cs),
                List.getLast?_append_of_ne_nil _ hM.1]
              exact hM.2
            · rw [hra] at hM
              exact absurd rfl hM.1
    · rintro S p rfl hS
      have hSlen : S.length > 0 := List.length_pos.mpr hS
      cases rest with
      | nil =>
        rw [parseGo_midLine_nil, if_pos hSlen] at h
        simp at h
      | cons c cs =>
        refine ⟨by simp, ?_⟩
        by_cases hnl : c = '\n'
        · subst hnl
          rw [parseGo_midLine_nl] at h
          exact nl_last cs ((ih root _ _ cs t h).1 _ rfl)
        · by_cases hbs : c = '\\'
          · subst hbs
            cases ha : appendLast root p (.node [] (cs.takeWhile (fun x => x ≠ '\n')) []) with
            | none =>
              rw [parseGo_midLine_bs, ha] at h
              simp at h
            | some root' =>
              cases hd : cs.dropWhile (fun x => x ≠ '\n') with
              | nil =>
                rw [parseGo_midLine_bs_nil _ _ _ _ _ _ _ ha hd, if_pos hSlen] at h
                simp at h
              | cons d rest2 =>
                rw [parseGo_midLine_bs_cons _ _ _ _ _ _ _ _ _ ha hd] at h
                have hdnl : d = '\n' := by
                  have hpf := dropWhile_head_false _ cs d rest2 hd
                  simpa using hpf
                subst hdnl
                have hA := (ih root' _ _ rest2 t h).1 _ rfl
                have hcs : ('\\' :: cs : List Char)
                    = ('\\' :: cs.takeWhile (fun x => x ≠ '\n')) ++ ('\n' :: rest2) := by
                  rw [List.cons_append]
                  conv_lhs => rw [← List.takeWhile_append_dropWhile
                    (p := fun x => x ≠ '\n') (l := cs), hd]
                rw [hcs, List.getLast?_append_of_ne_nil _ (by simp)]
                exact nl_last rest2 hA
          · by_cases hsep : isSepChar c
            · rw [parseGo_midLine_sep _ _ _ _ _ _ _ hnl hbs hsep] at h
              split at h <;> simp at h
            · have hsep' : isSepChar c = false := by simpa using hsep
              cases ha : appendLast root p
                  (.node ((c :: cs).takeWhile (fun x => ¬ isTypeEndChar x)) [] []) with
              | none =>
                rw [parseGo_midLine_tok _ _ _ _ _ _ _ hnl hbs hsep', ha] at h
                simp at h
              | some root' =>
                cases hd : (c :: cs).dropWhile (fun x => ¬ isTypeEndChar x) with
                | nil =>
                  rw [parseGo_midLine_tok_nil _ _ _ _ _ _ _ _ hnl hbs hsep' ha hd] at h
                  have := (ih root' _ _ [] t h).2 _ _ rfl hS
                  exact absurd rfl this.1
                | cons d rest2 =>
                  have hrest : (c :: cs : List Char)
                      = (c :: cs).takeWhile (fun x => ¬ isTypeEndChar x) ++ (d :: rest2) := by
                    conv_lhs => rw [← List.takeWhile_append_dropWhile
                      (p := fun x => ¬ isTypeEndChar x) (l := c :: cs), hd]
                  by_cases hdsp : d = ' '
                  · subst hdsp
                    rw [parseGo_midLine_tok_sp _ _ _ _ _ _ _ _ _ hnl hbs hsep' ha hd] at h
                    have hM := (ih root' _ _ rest2 t h).2 _ _ rfl hS
                    rw [hrest, List.getLast?_append_of_ne_nil _ (by simp)]
                    cases rest2 with
                    | nil => exact absurd rfl hM.1
                    | cons a as => rw [List.getLast?_cons_cons]; exact hM.2
                  · rw [parseGo_midLine_tok_nosp _ _ _ _ _ _ _ _ _ _ hnl hbs hsep' ha hd hdsp] at h
                    have hM := (ih root' _ _ (d :: rest2) t h).2 _ _ rfl hS
                    rw [hrest, List.getLast?_append_of_ne_nil _ (by simp)]
                    exact hM.2

/-- Every tree the parser loop returns satisfies the structural invariant and
keeps the root's type and value: the loop only ever extends the tree by
`appendLast` with invariant-satisfying fresh nodes (type tokens contain no
separator/backslash/newline characters by construction, data payloads stop at
the first newline). -/
theorem parseGo_ok_inv (fuel : Nat) : ∀ (root : Tree) (st : PState) (m : Nat)
    (rest : List Char) (t : Tree), parseGo fuel root st m rest = .ok t →
    InvTree root → InvTree t ∧ t.ty = root.ty ∧ t.v = root.v := by
  induction fuel with
  | zero =>
    intro root st m rest t h _
    simp [parseGo] at h
  | succ fuel ih =>
    intro root st m rest t h hInv
    cases st with
    | atLine S =>
      cases rest with
      | nil =>
        rw [parseGo_atLine_nil] at h
        cases h
        exact ⟨hInv, rfl, rfl⟩
      | cons c cs =>
        rw [parseGo_atLine_cons] at h
        cases hls : lineStartStep S (indentOf root m (c :: cs)) (afterTabs (c :: cs)) with
        | error e => rw [hls] at h; simp at h
        | ok restA =>
          rw [hls] at h
          cases hpi : pyIdx (pySliceTo S (indentOf root m (c :: cs) + 1))
              (indentOf root m (c :: cs)) with
          | none => rw [hpi] at h; simp at h
          | some parent =>
            rw [hpi] at h
            exact ih root _ _ restA t h hInv
    | midLine S p =>
      cases rest with
      | nil =>
        rw [parseGo_midLine_nil] at h
        split at h
        · simp at h
        · cases h
          exact ⟨hInv, rfl, rfl⟩
      | cons c cs =>
        by_cases hnl : c = '\n'
        · subst hnl
          rw [parseGo_midLine_nl] at h
          exact ih root _ _ cs t h hInv
        · by_cases hbs : c = '\\'
          · subst hbs
            cases ha : appendLast root p
                (.node [] (cs.takeWhile (fun x => x ≠ '\n')) []) with
            | none =>
              rw [parseGo_midLine_bs, ha] at h
              simp at h
            | some root' =>
              have hnodeInv : InvTree (.node [] (cs.takeWhile (fun x => x ≠ '\n')) []) := by
                refine InvTree.mk _ _ _ (fun hc => absurd rfl hc) (by simp) ?_ (by simp)
                intro hmem
                have := List.mem_takeWhile_imp hmem
                simp at this
              have hInv' := appendLast_inv p root root' _ hInv hnodeInv ha
              have hty := appendLast_ty_v p root root' _ ha
              cases hd : cs.dropWhile (fun x => x ≠ '\n') with
              | nil =>
                rw [parseGo_midLine_bs_nil _ _ _ _ _ _ _ ha hd] at h
                split at h
                · simp at h
                · cases h
                  exact ⟨hInv', hty.1, hty.2⟩
              | cons d rest2 =>
                rw [parseGo_midLine_bs_cons _ _ _ _ _ _ _ _ _ ha hd] at h
                have := ih root' _ _ rest2 t h hInv'
                exact ⟨this.1, this.2.1.trans hty.1, this.2.2.trans hty.2⟩
          · by_cases hsep : isSepChar c
            · rw [parseGo_midLine_sep _ _ _ _ _ _ _ hnl hbs hsep] at h
              split at h <;> simp at h
            · have hsep' : isSepChar c = false := by simpa using hsep
              cases ha : appendLast root p
                  (.node ((c :: cs).takeWhile (fun x => ¬ isTypeEndChar x)) [] []) with
              | none =>
                rw [parseGo_midLine_tok _ _ _ _ _ _ _ hnl hbs hsep', ha] at h
                simp at h
              | some root' =>
                have hnodeInv : InvTree
                    (.node ((c :: cs).takeWhile (fun x => ¬ isTypeEndChar x)) [] []) := by
                  refine InvTree.mk _ _ _ (fun _ => rfl) ?_ (by simp) (by simp)
                  intro x hx
                  have := List.mem_takeWhile_imp hx
                  simpa using this
                have hInv' := appendLast_inv p root root' _ hInv hnodeInv ha
                have hty := appendLast_ty_v p root root' _ ha
                have hfin : ∀ rest3 : List Char,
                    parseGo fuel root' (.midLine S (p + 1)) m rest3 = .ok t →
                    InvTree t ∧ t.ty = root.ty ∧ t.v = root.v := by
                  intro rest3 h3
                  have := ih root' _ _ rest3 t h3 hInv'
                  exact ⟨this.1, this.2.1.trans hty.1, this.2.2.trans hty.2⟩
                cases hd : (c :: cs).dropWhile (fun x => ¬ isTypeEndChar x) with
                | nil =>
                  rw [parseGo_midLine_tok_nil _ _ _ _ _ _ _ _ hnl hbs hsep' ha hd] at h
                  exact hfin [] h
                | cons d rest2 =>
                  by_cases hdsp : d = ' '
                  · subst hdsp
                    rw [parseGo_midLine_tok_sp _ _ _ _ _ _ _ _ _ hnl hbs hsep' ha hd] at h
                    exact hfin rest2 h
                  · rw [parseGo_midLine_tok_nosp _ _ _ _ _ _ _ _ _ _ hnl hbs hsep' ha hd
                      hdsp] at h
                    exact hfin (d :: rest2) h

/-- The joint induction behind the round-trip theorem: parsing the dump of a
single invariant subtree, or of a block of invariant siblings, appends
exactly those trees to the tree under construction and continues with the
remaining input.  Strong induction on the size of the subject. -/
theorem LBoth (n : Nat) : (∀ k : Tree, sizeOf k ≤ n → LnodeStmt k) ∧
    (∀ ks : List Tree, sizeOf ks ≤ n → LlistStmt ks) := by
  induction n using Nat.strong_induction_on with
  | _ n ih =>
  constructor
  · -- single subtree
    intro k hk
    obtain ⟨ty, v, kids⟩ := k
    intro T T' S p rest hInv hS hT
    have hSlen : 1 ≤ S.length := by
      cases S with
      | nil => exact absurd rfl hS
      | cons a as => simp
    have hpfx : tabs S.length ≠ [] := tabs_ne_nil _ hSlen
    cases hInv with
    | mk ty0 v0 kids0 h1 h2 h3 h4 =>
    by_cases hty : ty = []
    · -- leaf node: backslash line followed by the children block
      subst hty
      rw [dump_leaf v kids _ hpfx]
      have hsome : (appendLast T p (.node [] v [])).isSome :=
        appendLast_isSome_congr p T _ _ (by rw [hT]; rfl)
      obtain ⟨T1, hT1⟩ := Option.isSome_iff_exists.mp hsome
      obtain ⟨T2, hT2, hT2b⟩ := appendAll_after_append p T [] v kids [] T1 hT1
      have hT2T' : T2 = T' := by
        simp only [List.nil_append] at hT2b
        exact Option.some.inj (hT2b.symm.trans hT)
      rw [hT2T'] at hT2
      have hszk : sizeOf kids < n := by
        have : sizeOf kids < sizeOf (Tree.node [] v kids) := by
          simp only [Tree.node.sizeOf_spec]
          omega
        omega
      have hlist := (ih (sizeOf kids) hszk).2 kids le_rfl
      obtain ⟨ext2, hcont⟩ := hlist T1 T' (S ++ [p + 1]) [] (p + 1) rest h4
        (by simp) (by simp) (fun hh => absurd hh (appendLast_root_kids_ne p T T1 _ hT1))
        hT2
      refine ⟨[p + 1] ++ ext2, ?_⟩
      intro r hr
      have hr' : RunsA T' ((S ++ [p + 1]) ++ ext2) 0 rest r := by
        rw [List.append_assoc]
        exact hr
      have hrun := hcont r hr'
      have hlen1 : (S ++ [p + 1]).length - 1 = S.length := by simp
      have hrun' : RunsA T1 (S ++ [p + 1]) 0 (dumpKids kids (tabs S.length) ++ rest) r := by
        rw [hlen1] at hrun
        simpa using hrun
      have := runs_leaf T T1 S p 0 v (dumpKids kids (tabs S.length) ++ rest) r h3 hT1 hrun'
      simpa [List.cons_append, List.append_assoc] using this
    · -- structural node
      have hv : v = [] := h1 hty
      subst hv
      have hsome : (appendLast T p (.node ty [] [])).isSome :=
        appendLast_isSome_congr p T _ _ (by rw [hT]; rfl)
      obtain ⟨T1, hT1⟩ := Option.isSome_iff_exists.mp hsome
      by_cases hsing : ∃ k0, kids = [k0]
      · -- exactly one child: inlined on the same line after a space
        obtain ⟨k0, rfl⟩ := hsing
        rw [dump_struct_single ty [] k0 _ hty hpfx]
        obtain ⟨T2, hT2, hT2b⟩ := appendLast_chain p T ty [] [] k0 T1 hT1
        have hT2T' : T2 = T' := by
          simp only [List.nil_append] at hT2b
          exact Option.some.inj (hT2b.symm.trans hT)
        rw [hT2T'] at hT2
        have hszk : sizeOf k0 < n := by
          have := sizeOf_kid_lt ty [] [k0] k0 (by simp)
          omega
        have hnode := (ih (sizeOf k0) hszk).1 k0 le_rfl
        obtain ⟨ext, hcont⟩ := hnode T1 T' S (p + 1) rest (h4 k0 (by simp)) hS hT2
        refine ⟨ext, ?_⟩
        intro r hr
        have := runs_token_sp T T1 S p 0 ty (dump k0 (tabs S.length) ++ rest) r hty h2 hT1
          (hcont r hr)
        simpa [List.cons_append, List.append_assoc] using this
      · -- zero or several children: own-line children block
        have hkids' : ∀ k0, kids ≠ [k0] := by
          intro k0 hcon
          exact hsing ⟨k0, hcon⟩
        rw [dump_struct_multi ty [] kids _ hty hpfx hkids']
        obtain ⟨T2, hT2, hT2b⟩ := appendAll_after_append p T ty [] kids [] T1 hT1
        have hT2T' : T2 = T' := by
          simp only [List.nil_append] at hT2b
          exact Option.some.inj (hT2b.symm.trans hT)
        rw [hT2T'] at hT2
        have hszk : sizeOf kids < n := by
          have : sizeOf kids < sizeOf (Tree.node ty [] kids) := by
            simp only [Tree.node.sizeOf_spec]
            omega
          omega
        have hlist := (ih (sizeOf kids) hszk).2 kids le_rfl
        obtain ⟨ext2, hcont⟩ := hlist T1 T' (S ++ [p + 1]) [] (p + 1) rest h4
          (by simp) (by simp) (fun hh => absurd hh (appendLast_root_kids_ne p T T1 _ hT1))
          hT2
        refine ⟨[p + 1] ++ ext2, ?_⟩
        intro r hr
        have hr' : RunsA T' ((S ++ [p + 1]) ++ ext2) 0 rest r := by
          rw [List.append_assoc]
          exact hr
        have hrun := hcont r hr'
        have hlen1 : (S ++ [p + 1]).length - 1 = S.length := by simp
        have hrun' : RunsA T1 (S ++ [p + 1]) 0 (dumpKids kids (tabs S.length) ++ rest) r := by
          rw [hlen1] at hrun
          simpa using hrun
        have := runs_token_nl T T1 S p 0 ty (dumpKids kids (tabs S.length) ++ rest) r hty h2
          hT1 hrun'
        simpa [List.cons_append, List.append_assoc] using this
  · -- block of siblings
    intro ks hks
    cases ks with
    | nil =>
      intro T Tfin S ext0 p rest hInvs hS hp hkc hApp
      simp only [appendAll] at hApp
      cases hApp
      refine ⟨ext0, ?_⟩
      intro r hr
      rw [dumpKids_nil]
      simpa using hr
    | cons k ks2 =>
      intro T Tfin S ext0 p rest hInvs hS hp hkc hApp
      have hSlen : 1 ≤ S.length := by
        cases S with
        | nil => exact absurd rfl hS
        | cons a as => simp
      simp only [appendAll] at hApp
      cases hT1 : appendLast T p k with
      | none =>
        simp only [hT1] at hApp
        simp at hApp
      | some T1 =>
        simp only [hT1] at hApp
        have hszk : sizeOf k < n := by
          have : sizeOf k < sizeOf (k :: ks2) := by
            simp only [List.cons.sizeOf_spec]
            omega
          omega
        have hszks : sizeOf ks2 < n := by
          have : sizeOf ks2 < sizeOf (k :: ks2) := by
            simp only [List.cons.sizeOf_spec]
            omega
          omega
        have hnode := (ih (sizeOf k) hszk).1 k le_rfl
        obtain ⟨extk, hcontk⟩ := hnode T T1 S p
          (dumpKids ks2 (tabs (S.length - 1)) ++ rest) (hInvs k (by simp)) hS hT1
        have hlist := (ih (sizeOf ks2) hszks).2 ks2 le_rfl
        obtain ⟨ext, hcont⟩ := hlist T1 Tfin S extk p rest
          (fun x hx => hInvs x (by simp [hx])) hS hp
          (fun hh => absurd hh (appendLast_root_kids_ne p T T1 k hT1)) hApp
        refine ⟨ext, ?_⟩
        intro r hr
        rw [dumpKids_cons]
        have hstep := hcont r hr
        have hM := hcontk r hstep
        obtain ⟨c, cs, hdk, hct⟩ := dump_head k (tabs S.length)
          (hInvs k (by simp)) (tabs_ne_nil _ hSlen)
        have hM' : RunsM T S p 0 (c :: (cs ++ (dumpKids ks2 (tabs (S.length - 1)) ++ rest))) r := by
          rw [hdk] at hM
          simpa [List.cons_append, List.append_assoc] using hM
        have hA := runs_line_entry T S ext0 p c
          (cs ++ (dumpKids ks2 (tabs (S.length - 1)) ++ rest)) r hS hp hkc hct hM'
        have hpfxeq : tabs (S.length - 1) ++ ['\t'] = tabs S.length := by
          simp only [tabs]
          rw [← List.replicate_succ']
          congr 1
          omega
        rw [hpfxeq]
        have hre : tabs (S.length - 1) ++ c ::
            (cs ++ (dumpKids ks2 (tabs (S.length - 1)) ++ rest))
            = ((tabs (S.length - 1) ++ dump k (tabs S.length)) ++
                dumpKids ks2 (tabs (S.length - 1))) ++ rest := by
          rw [hdk]
          simp [List.cons_append, List.append_assoc]
        rw [← hre]
        exact hA

/-- Parsing the serialization of an invariant wrap-rooted tree returns
exactly that tree: the strong half of the round-trip property. -/
theorem parse_dump (t : Tree) (hty : t.ty = []) (hv : t.v = [])
    (hkids : ∀ k ∈ t.kids, InvTree k) :
    string_to_tree (tree_to_string t) = .ok t := by
  obtain ⟨ty, v, kids⟩ := t
  simp only [Tree.ty_node] at hty
  simp only [Tree.v_node] at hv
  subst hty
  subst hv
  simp only [Tree.kids_node] at hkids
  have hdump : tree_to_string (.node [] [] kids) = dumpKids kids [] := by
    unfold tree_to_string
    rw [dump]
    simp
  have hApp : appendAll (.node [] [] []) 0 kids = some (.node [] [] kids) := by
    have := appendAll_zero [] [] kids []
    simpa using this
  have hlist := (LBoth (sizeOf kids)).2 kids le_rfl
  obtain ⟨ext, hcont⟩ := hlist (.node [] [] []) (.node [] [] kids) [0] [] 0 []
    hkids (by simp) (by simp) (fun _ => rfl) hApp
  have hrun := hcont (.ok (.node [] [] kids)) (runs_nil _ _ _)
  simp only [List.append_nil, show (([0] : List Nat).length - 1) = 0 from rfl,
    show tabs 0 = [] from rfl] at hrun
  rw [hdump]
  unfold string_to_tree
  exact hrun (2 * (dumpKids kids []).length + 4) (by omega)

/-- A tree returned by string_to_tree is a wrap root (empty type and value)
whose subtrees all satisfy the structural invariant. -/
theorem parse_ok_root_inv (s : List Char) (t : Tree) (h : string_to_tree s = .ok t) :
    t.ty = [] ∧ t.v = [] ∧ ∀ k ∈ t.kids, InvTree k := by
  have hroot : InvTree (.node [] [] []) :=
    InvTree.mk [] [] [] (fun hc => absurd rfl hc) (by simp) (by simp) (by simp)
  obtain ⟨hInv, hty, hv⟩ := parseGo_ok_inv _ _ _ _ _ _ h hroot
  refine ⟨hty, hv, ?_⟩
  obtain ⟨ty, v, kids⟩ := t
  cases hInv with
  | mk _ _ _ _ _ _ h4 => exact h4

/-- Claim C1: the serializer-parser round trip is idempotent.  For any tree
`t` produced by the parser from some input, parsing the serialization of `t`
succeeds and re-serializes to the same string (in fact it returns `t`
itself, from which the claimed equality
`tree_to_string (string_to_tree (tree_to_string t)) = tree_to_string t`
follows with `t2 = t`). -/
theorem serialize_parse_serialize_idempotent (s : List Char) (t : Tree)
    (h : string_to_tree s = .ok t) :
    ∃ t2, string_to_tree (tree_to_string t) = .ok t2 ∧
      tree_to_string t2 = tree_to_string t := by
  obtain ⟨hty, hv, hkids⟩ := parse_ok_root_inv s t h
  exact ⟨t, parse_dump t hty hv hkids, rfl⟩

theorem serialize_parse_serialize_idempotent_witness :
    ∃ t2, string_to_tree (tree_to_string
        (Tree.node [] [] [Tree.node ['a'] [] [Tree.node ['b'] [] []]])) = .ok t2 ∧
      tree_to_string t2 = tree_to_string
        (Tree.node [] [] [Tree.node ['a'] [] [Tree.node ['b'] [] []]]) :=
  serialize_parse_serialize_idempotent "a b\n".data
    (Tree.node [] [] [Tree.node ['a'] [] [Tree.node ['b'] [] []]]) (by rfl)

/-- Claim C6 (amended): every non-empty input whose last character is not a
newline makes string_to_tree raise some exception (not necessarily the
unexpected-EOF one): the parser only ever returns a tree when the input is
empty or newline-terminated. -/
theorem missing_final_newline_always_errors (s : List Char) (h1 : s ≠ [])
    (h2 : s.getLast? ≠ some '\n') : ∃ e, string_to_tree s = .error e := by
  cases hr : string_to_tree s with
  | error e => exact ⟨e, rfl⟩
  | ok t =>
    have := (parseGo_ok_ends_nl _ _ _ _ _ _ hr).1 [0] rfl
    rcases this with hnil | hlast
    · exact absurd hnil h1
    · exact absurd hlast h2

theorem missing_final_newline_always_errors_witness :
    ∃ e, string_to_tree "a".data = .error e :=
  missing_final_newline_always_errors "a".data (by decide) (by decide)

end Treearbo
